import Mathlib

/-!
Verification of the compilation-database core of Bear
(src/rust/src/compilation/database.rs): the entry data model and its
dedup semantics, the shell-word tokenizer used for the string-command
record shape, the record codec, and the load/save pipeline.
-/

namespace Bear

/-! ### Character constants

Named characters for the quote and backslash characters, used by the
shell-word tokenizer model. -/

def squote : Char := Char.ofNat 39

def dquote : Char := Char.ofNat 34

def bslash : Char := '\\'

/-! ### Path model

Models Rust's `std::path::PathBuf` as used by `database.rs`: a path is
either valid Unicode text (in which case `Path::to_str` returns it) or a
non-representable byte sequence, abstracted here by a numeric identifier
(`Path::to_str` returns `None` on it).  `PathBuf::from(String)` always
produces a text-valid path. -/

inductive PathBuf where
  | valid (s : String)
  | invalid (id : Nat)
deriving DecidableEq, Repr

def PathBuf.toStr : PathBuf → Option String
  | .valid s => some s
  | .invalid _ => none

def PathBuf.fromStr (s : String) : PathBuf := .valid s

/-! ### Entry data model (database.rs lines 27-47) -/

/-- The internal entry of the compilation database (struct `Entry`). -/
structure Entry where
  directory : PathBuf
  file : PathBuf
  command : List String
  output : Option PathBuf
deriving DecidableEq, Repr

/-- The hand-written `PartialEq for Entry` (lines 36-42): equality compares
`directory`, `file` and `command` only; `output` is not compared. -/
def Entry.eq (a b : Entry) : Bool :=
  decide (a.directory = b.directory) && decide (a.file = b.file)
    && decide (a.command = b.command)

/-- The field tuple fed to the hasher by `#[derive(Hash)]` on `Entry`
(line 28): the derived implementation hashes every field in declaration
order, including `output`. -/
def Entry.derivedHashInput (e : Entry) :
    PathBuf × PathBuf × List String × Option PathBuf :=
  (e.directory, e.file, e.command, e.output)

/-- Models `HashSet<Entry>::insert` under the documented `HashSet`
Hash/Eq contract: the element is added only when no `Entry::eq`-equal
element is present; an existing equal element is kept unchanged.  The
program violates that contract: `Entry`'s derived `Hash` includes
`output` while `Entry::eq` excludes it, so the real set does not
guarantee this dedup for eq-equal entries differing only in `output`
(see the theorems about C1 and C3 below).  The theorems that rely on
this model (the C2/C6 round trips) only ever insert pairwise
non-eq entries, where the contract model and the real `HashSet`
agree.  (The order of the underlying list is irrelevant to the set
claims.) -/
def insertEntry (s : List Entry) (e : Entry) : List Entry :=
  if s.any (fun x => Entry.eq x e) then s else s ++ [e]

/-- An entry list represents a set: no two elements are `Entry.eq`. -/
def entrySetInv : List Entry → Bool
  | [] => true
  | e :: rest => rest.all (fun x => !Entry.eq e x) && entrySetInv rest

/-- Format selector for `save` (struct `DatabaseFormat`, lines 51-56). -/
structure DatabaseFormat where
  command_as_array : Bool

/-! ### Shell-word tokenizer

Modelled from the spec: the `shellwords` crate used by `database.rs`
(`shellwords::split` / `shellwords::join`) is not under src/, so the
tokenizer is modelled from spec section 4.1: `split` parses a line with
shell-style word splitting (whitespace separates tokens outside quotes;
single and double quotes group text and are removed; backslash escaping
is honored; unbalanced quoting is the failure mode), and `join` re-quotes
any token containing whitespace or shell-special characters so that
`split (join tokens) = tokens`, and is plain concatenation with single
spaces when no token needs quoting. -/

inductive QuoteError where
  | mismatchedQuotes
deriving DecidableEq, Repr

/-- Whitespace characters that separate tokens outside quotes. -/
def isWs (c : Char) : Bool :=
  decide (c = ' ') || decide (c = '\t') || decide (c = '\n') || decide (c = '\r')

/-- Characters `join` must escape: whitespace and shell-special
characters (quotes and backslash). -/
def needsEscape (c : Char) : Bool :=
  isWs c || decide (c = squote) || decide (c = dquote) || decide (c = bslash)

def escapeChar (c : Char) : List Char :=
  if needsEscape c then [bslash, c] else [c]

def escList (t : List Char) : List Char :=
  (t.map escapeChar).flatten

/-- Quote one token for `join`: an empty token becomes a pair of single
quotes, any other token has its special characters backslash-escaped. -/
def quoteTok (t : List Char) : List Char :=
  if t = [] then [squote, squote] else escList t

def joinCore : List (List Char) → List Char
  | [] => []
  | [t] => quoteTok t
  | t :: ts => quoteTok t ++ ' ' :: joinCore ts

/-- Modelled from the spec: `shellwords::join`. -/
def join (ts : List String) : String :=
  String.mk (joinCore (ts.map String.data))

/-- Tokenizer state: outside quotes, inside single quotes, inside double
quotes. -/
inductive Mode where
  | normal
  | single
  | double

/-- The tokenizer loop: input characters, current mode, current token
accumulator (`none` while not inside a word). -/
def splitLoop : List Char → Mode → Option (List Char) → Except QuoteError (List String)
  | [], .normal, none => .ok []
  | [], .normal, some t => .ok [String.mk t]
  | [], .single, _ => .error .mismatchedQuotes
  | [], .double, _ => .error .mismatchedQuotes
  | c :: rest, .single, acc =>
    if c = squote then splitLoop rest .normal (some (acc.getD []))
    else splitLoop rest .single (some (acc.getD [] ++ [c]))
  | c :: rest, .double, acc =>
    if c = dquote then splitLoop rest .normal (some (acc.getD []))
    else if c = bslash then
      match rest with
      | [] => .error .mismatchedQuotes
      | d :: rest2 => splitLoop rest2 .double (some (acc.getD [] ++ [d]))
    else splitLoop rest .double (some (acc.getD [] ++ [c]))
  | c :: rest, .normal, acc =>
    if isWs c then
      match acc with
      | none => splitLoop rest .normal none
      | some t => (splitLoop rest .normal none).map (fun ts => String.mk t :: ts)
    else if c = bslash then
      match rest with
      | [] => .error .mismatchedQuotes
      | d :: rest2 => splitLoop rest2 .normal (some (acc.getD [] ++ [d]))
    else if c = squote then splitLoop rest .single (some (acc.getD []))
    else if c = dquote then splitLoop rest .double (some (acc.getD []))
    else splitLoop rest .normal (some (acc.getD [] ++ [c]))

/-- Modelled from the spec: `shellwords::split`. -/
def split (s : String) : Except QuoteError (List String) :=
  splitLoop s.data .normal none

/-! ### Rust Debug formatting of strings

`inner::into` builds its error message with `format!("Quotes are
mismatch in {:?}", command)`.  `{:?}` on a string wraps it in double
quotes and escapes special characters. -/

def rustDebugChar (c : Char) : List Char :=
  if c = dquote then [bslash, dquote]
  else if c = bslash then [bslash, bslash]
  else if c = '\t' then [bslash, 't']
  else if c = '\n' then [bslash, 'n']
  else if c = '\r' then [bslash, 'r']
  else [c]

/-- Models Rust's `{:?}` Debug rendering of a string for printable
content: double quotes around the text, with quotes, backslashes and
common control characters backslash-escaped.  (The `\u` escapes Rust
uses for other control characters are not modelled; no claim depends on
them.) -/
def rustDebugStr (s : String) : String :=
  String.mk (dquote :: (s.data.map rustDebugChar).flatten ++ [dquote])

/-- Debug rendering of a path, used in `path_to_string`'s error message.
For a non-representable path the concrete Rust rendering of the raw
bytes is abstracted by the id. -/
def pathDebug : PathBuf → String
  | .valid s => rustDebugStr s
  | .invalid n => "<non-unicode path " ++ toString n ++ ">"

/-! ### Record codec (mod `inner`, database.rs lines 331-443) -/

/-- The on-disk record shape (enum `inner::GenericEntry`, declared with
`#[serde(untagged)]`; `StringEntry` is declared first). -/
inductive GenericEntry where
  | StringEntry (directory : String) (file : String) (command : String)
      (output : Option String)
  | ArrayEntry (directory : String) (file : String) (arguments : List String)
      (output : Option String)
deriving DecidableEq, Repr

/-- `path_to_string` (nested fn in `inner::from`, lines 377-382). -/
def path_to_string (p : PathBuf) : Except String String :=
  match p.toStr with
  | some str => .ok str
  | none => .error ("Failed to convert to string " ++ pathDebug p)

/-- `inner::from` (lines 376-410): convert one `Entry` to a
`GenericEntry` per the requested format. -/
def from_entry (entry : Entry) (format : DatabaseFormat) : Except String GenericEntry :=
  match path_to_string entry.directory with
  | .error e => .error e
  | .ok directory =>
    match path_to_string entry.file with
    | .error e => .error e
    | .ok file =>
      match (match entry.output with
             | some p => (path_to_string p).map Option.some
             | none => .ok none) with
      | .error e => .error e
      | .ok output =>
        if format.command_as_array then
          .ok (.ArrayEntry directory file entry.command output)
        else
          .ok (.StringEntry directory file (join entry.command) output)

/-- The error message of `inner::into` for a failed tokenization
(line 439): `format!("Quotes are mismatch in {:?}", command)`. -/
def mismatchMsg (command : String) : String :=
  "Quotes are mismatch in " ++ rustDebugStr command

/-- `inner::into` (lines 412-443): convert one `GenericEntry` to an
`Entry`.  The array variant copies `arguments`; the string variant
tokenizes `command` with `shellwords::split` and surfaces a quote error
as a message naming the command. -/
def into (entry : GenericEntry) : Except String Entry :=
  match entry with
  | .ArrayEntry directory file arguments output =>
    .ok { directory := PathBuf.fromStr directory
          , file := PathBuf.fromStr file
          , command := arguments
          , output := output.map PathBuf.fromStr }
  | .StringEntry directory file command output =>
    match split command with
    | .ok arguments =>
      .ok { directory := PathBuf.fromStr directory
            , file := PathBuf.fromStr file
            , command := arguments
            , output := output.map PathBuf.fromStr }
    | .error _ => .error (mismatchMsg command)

/-! ### Database facade (lines 63-93) -/

def errOpt {α : Type} : Except String α → Option String
  | .error e => some e
  | .ok _ => none

/-- Models `Vec<String>::join(", ")`, used for the aggregate error. -/
def commaJoin : List String → String
  | [] => ""
  | [m] => m
  | m :: rest => m ++ ", " ++ commaJoin rest

/-- Models `generic_entries.iter().map(into).collect::<Result<Entries>>()`
(lines 70-72): convert records in order into a `HashSet`, stopping at
the first conversion error. -/
def collectEntries : List GenericEntry → List Entry → Except String (List Entry)
  | [], acc => .ok acc
  | r :: rest, acc =>
    match into r with
    | .error e => .error e
    | .ok entry => collectEntries rest (insertEntry acc entry)

/-- One step of the diagnostic-free conversion fold: a record that
converts is inserted into the set, a failing record adds nothing. -/
def insertRecord (acc : List Entry) (r : GenericEntry) : List Entry :=
  match into r with
  | .ok e => insertEntry acc e
  | .error _ => acc

/-- The deduplicated set of all successfully converted records. -/
def dedupAll (records : List GenericEntry) : List Entry :=
  records.foldl insertRecord []

/-- The aggregate diagnostic built by `Database::load`'s error branch
(lines 74-81): the error message of every failing record, comma-joined. -/
def aggMsg (records : List GenericEntry) : String :=
  commaJoin (records.filterMap (fun r => errOpt (into r)))

/-- `Database::load` after the JSON document has been parsed into
generic records (lines 68-85). -/
def loadRecords (records : List GenericEntry) : Except String (List Entry) :=
  match collectEntries records [] with
  | .ok entries => .ok entries
  | .error _ => .error (aggMsg records)

/-- `entries.iter().map(|entry| inner::from(entry, format))
.collect::<Result<Vec<_>>>()` (`Database::save`, lines 88-90): convert
every entry, stopping at the first error. -/
def convertAllEntries : List Entry → DatabaseFormat → Except String (List GenericEntry)
  | [], _ => .ok []
  | e :: rest, fmt =>
    match from_entry e fmt with
    | .error msg => .error msg
    | .ok r =>
      match convertAllEntries rest fmt with
      | .error msg => .error msg
      | .ok rs => .ok (r :: rs)

/-! ### JSON document layer

Models the `serde_json` value level: the parsed JSON document.  The
byte-level JSON grammar of `serde_json` is external; the document is
represented as a JSON value tree. -/

inductive Json where
  | null
  | bool (b : Bool)
  | num (n : Int)
  | str (s : String)
  | arr (items : List Json)
  | obj (fields : List (String × Json))

/-- First-match field lookup in a JSON object. -/
def lookupField : List (String × Json) → String → Option Json
  | [], _ => none
  | (k, v) :: rest, key => if k = key then some v else lookupField rest key

/-- Serialization of `GenericEntry` as derived by serde: fields in
declaration order; `output` is skipped when `None`
(`skip_serializing_if = "Option::is_none"`, lines 343 and 350). -/
def encodeGenericEntry : GenericEntry → Json
  | .StringEntry d f c o =>
    .obj ([("directory", .str d), ("file", .str f), ("command", .str c)] ++
      (match o with
       | none => []
       | some s => [("output", .str s)]))
  | .ArrayEntry d f args o =>
    .obj ([("directory", .str d), ("file", .str f),
           ("arguments", .arr (args.map Json.str))] ++
      (match o with
       | none => []
       | some s => [("output", .str s)]))

def decodeStrList : List Json → Option (List String)
  | [] => some []
  | Json.str s :: rest => (decodeStrList rest).map (fun l => s :: l)
  | _ :: _ => none

/-- Decoding of the optional `output` field: a missing field or JSON
null gives `none`, a string gives `some`, anything else fails. -/
def decodeOutput (fields : List (String × Json)) : Option (Option String) :=
  match lookupField fields "output" with
  | none => some none
  | some Json.null => some none
  | some (Json.str s) => some (some s)
  | some _ => none

def decodeStringEntry (fields : List (String × Json)) : Option GenericEntry :=
  match lookupField fields "directory", lookupField fields "file",
        lookupField fields "command" with
  | some (Json.str d), some (Json.str f), some (Json.str c) =>
    (decodeOutput fields).map (fun o => .StringEntry d f c o)
  | _, _, _ => none

def decodeArrayEntry (fields : List (String × Json)) : Option GenericEntry :=
  match lookupField fields "directory", lookupField fields "file",
        lookupField fields "arguments" with
  | some (Json.str d), some (Json.str f), some (Json.arr items) =>
    match decodeStrList items with
    | some args => (decodeOutput fields).map (fun o => .ArrayEntry d f args o)
    | none => none
  | _, _, _ => none

/-- Models the `#[serde(untagged)]` `Deserialize` derived for
`inner::GenericEntry` (lines 336-353) per serde's documented untagged
semantics: the variants are tried in declaration order (`StringEntry`
first, then `ArrayEntry`), the first that matches wins, and unknown
object fields are ignored. -/
def decodeGenericEntry : Json → Option GenericEntry
  | .obj fields =>
    match decodeStringEntry fields with
    | some r => some r
    | none => decodeArrayEntry fields
  | _ => none

def decodeAll : List Json → Except String (List GenericEntry)
  | [] => .ok []
  | j :: rest =>
    match decodeGenericEntry j with
    | none => .error "data did not match any variant of untagged enum GenericEntry"
    | some r => (decodeAll rest).map (fun rs => r :: rs)

/-- `serde_json::from_reader` at the value level (`inner::load`,
lines 358-364): the document must be a JSON array of records. -/
def parseDocument : Json → Except String (List GenericEntry)
  | .arr items => decodeAll items
  | _ => .error "invalid type: expected a sequence"

/-- `Database::load` from a parsed document: parse records, then convert
and aggregate. -/
def loadDoc (doc : Json) : Except String (List Entry) :=
  match parseDocument doc with
  | .error e => .error e
  | .ok records => loadRecords records

/-- The value-level `Database::save` pipeline (lines 87-92 with
`inner::save`, lines 366-374): convert every entry, then serialize the
record list as a JSON array. -/
def saveDoc (entries : List Entry) (fmt : DatabaseFormat) : Except String Json :=
  match convertAllEntries entries fmt with
  | .error e => .error e
  | .ok recs => .ok (Json.arr (recs.map encodeGenericEntry))

/-- `Database::save` with the backing file made explicit: the file
content (a parsed JSON document, `none` when the file does not exist) is
threaded through; `inner::save` truncates and rewrites it only when
every conversion succeeded (`?` on line 90 returns first). -/
def Database.save (file : Option Json) (entries : List Entry)
    (fmt : DatabaseFormat) : Except String Unit × Option Json :=
  match saveDoc entries fmt with
  | .error e => (.error e, file)
  | .ok doc => (.ok (), some doc)

/-- Save followed by load of the written document, for the round-trip
properties. -/
def saveLoad (entries : List Entry) (fmt : DatabaseFormat) :
    Except String (List Entry) :=
  match saveDoc entries fmt with
  | .error e => .error e
  | .ok doc => loadDoc doc

/-- Whether every path field of an entry is representable as text. -/
def entryPathsRepresentable (e : Entry) : Bool :=
  e.directory.toStr.isSome && e.file.toStr.isSome &&
    (match e.output with
     | some p => p.toStr.isSome
     | none => true)

/-- The string fields of a representable entry. -/
def strOfPath (p : PathBuf) : String := p.toStr.getD ""

/-- The record `from_entry` produces for a representable entry. -/
def recordOf (e : Entry) (fmt : DatabaseFormat) : GenericEntry :=
  if fmt.command_as_array then
    .ArrayEntry (strOfPath e.directory) (strOfPath e.file) e.command
      (e.output.map strOfPath)
  else
    .StringEntry (strOfPath e.directory) (strOfPath e.file) (join e.command)
      (e.output.map strOfPath)

/-- Substring test (used to formalize "the error message contains the
command text"). -/
def strContains (hay sub : String) : Bool :=
  (List.range (hay.data.length + 1)).any
    (fun i => sub.data.isPrefixOf (hay.data.drop i))

/-- The error of the first entry whose conversion fails. -/
def firstConvErr (entries : List Entry) (fmt : DatabaseFormat) : String :=
  (entries.filterMap (fun e => errOpt (from_entry e fmt))).headD ""

/-- `loadRecords` never produces an empty error message. -/
def loadErrMsgNonempty (records : List GenericEntry) : Bool :=
  match loadRecords records with
  | .error m => !(decide (m = ""))
  | .ok _ => true


/-! ### Tokenizer round trip -/

theorem escList_cons (c : Char) (t : List Char) :
    escList (c :: t) = escapeChar c ++ escList t := by
  simp [escList]

theorem needsEscape_false_facts {c : Char} (h : needsEscape c = false) :
    isWs c = false ∧ ¬(c = squote) ∧ ¬(c = dquote) ∧ ¬(c = bslash) := by
  simp only [needsEscape, Bool.or_eq_false_iff, decide_eq_false_iff_not] at h
  exact ⟨h.1.1.1, h.1.1.2, h.1.2, h.2⟩

theorem splitLoop_normal_cons (c : Char) (rest : List Char) (acc : Option (List Char)) :
    splitLoop (c :: rest) .normal acc =
      (if isWs c then
        match acc with
        | none => splitLoop rest .normal none
        | some t => (splitLoop rest .normal none).map (fun ts => String.mk t :: ts)
      else if c = bslash then
        match rest with
        | [] => .error .mismatchedQuotes
        | d :: rest2 => splitLoop rest2 .normal (some (acc.getD [] ++ [d]))
      else if c = squote then splitLoop rest .single (some (acc.getD []))
      else if c = dquote then splitLoop rest .double (some (acc.getD []))
      else splitLoop rest .normal (some (acc.getD [] ++ [c]))) := by
  rw [splitLoop.eq_def]

theorem splitLoop_single_cons (c : Char) (rest : List Char) (acc : Option (List Char)) :
    splitLoop (c :: rest) .single acc =
      (if c = squote then splitLoop rest .normal (some (acc.getD []))
       else splitLoop rest .single (some (acc.getD [] ++ [c]))) := by
  rw [splitLoop.eq_def]

theorem splitLoop_double_cons (c : Char) (rest : List Char) (acc : Option (List Char)) :
    splitLoop (c :: rest) .double acc =
      (if c = dquote then splitLoop rest .normal (some (acc.getD []))
       else if c = bslash then
         match rest with
         | [] => .error .mismatchedQuotes
         | d :: rest2 => splitLoop rest2 .double (some (acc.getD [] ++ [d]))
       else splitLoop rest .double (some (acc.getD [] ++ [c]))) := by
  rw [splitLoop.eq_def]

theorem escList_go (t : List Char) : ∀ (a rest : List Char),
    splitLoop (escList t ++ rest) .normal (some a) =
      splitLoop rest .normal (some (a ++ t)) := by
  induction t with
  | nil =>
    intro a rest
    simp [escList]
  | cons c t ih =>
    intro a rest
    rw [escList_cons]
    by_cases h : needsEscape c = true
    · have hcb : escapeChar c = [bslash, c] := by simp [escapeChar, h]
      rw [hcb]
      have hws : isWs bslash = false := by decide
      have hbs : bslash = bslash := rfl
      show splitLoop (bslash :: c :: (escList t ++ rest)) .normal (some a) = _
      rw [splitLoop_normal_cons]
      simp only [hws, Bool.false_eq_true, if_false, if_pos hbs, Option.getD_some]
      rw [ih]
      simp
    · have h' : needsEscape c = false := by simpa using h
      obtain ⟨h1, h2, h3, h4⟩ := needsEscape_false_facts h'
      have hcb : escapeChar c = [c] := by simp [escapeChar, h']
      rw [hcb]
      show splitLoop (c :: (escList t ++ rest)) .normal (some a) = _
      rw [splitLoop_normal_cons]
      simp only [h1, Bool.false_eq_true, if_false, if_neg h2, if_neg h3, if_neg h4, Option.getD_some]
      rw [ih]
      simp

theorem quoteTok_go (t rest : List Char) :
    splitLoop (quoteTok t ++ rest) .normal none = splitLoop rest .normal (some t) := by
  by_cases ht : t = []
  · subst ht
    have h1 : isWs squote = false := by decide
    have h2 : ¬(squote = bslash) := by decide
    simp only [quoteTok, if_pos rfl]
    show splitLoop (squote :: squote :: rest) .normal none = _
    rw [splitLoop_normal_cons]
    simp only [h1, Bool.false_eq_true, if_false, if_neg h2, if_pos rfl, Option.getD_none]
    rw [splitLoop_single_cons]
    simp
  · obtain ⟨c, t', rfl⟩ : ∃ c t', t = c :: t' := by
      cases t with
      | nil => exact absurd rfl ht
      | cons c t' => exact ⟨c, t', rfl⟩
    simp only [quoteTok, if_neg ht]
    rw [escList_cons]
    by_cases h : needsEscape c = true
    · have hcb : escapeChar c = [bslash, c] := by simp [escapeChar, h]
      rw [hcb]
      have hws : isWs bslash = false := by decide
      show splitLoop (bslash :: c :: (escList t' ++ rest)) .normal none = _
      rw [splitLoop_normal_cons]
      simp only [hws, Bool.false_eq_true, if_false, if_pos rfl, Option.getD_none]
      rw [escList_go]
      simp
    · have h' : needsEscape c = false := by simpa using h
      obtain ⟨h1, h2, h3, h4⟩ := needsEscape_false_facts h'
      have hcb : escapeChar c = [c] := by simp [escapeChar, h']
      rw [hcb]
      show splitLoop (c :: (escList t' ++ rest)) .normal none = _
      rw [splitLoop_normal_cons]
      simp only [h1, Bool.false_eq_true, if_false, if_neg h2, if_neg h3, if_neg h4, Option.getD_none]
      rw [escList_go]
      simp

theorem joinCore_split (ts : List (List Char)) :
    splitLoop (joinCore ts) .normal none = .ok (ts.map String.mk) := by
  induction ts with
  | nil => rfl
  | cons t tail ih =>
    cases tail with
    | nil =>
      have : joinCore [t] = quoteTok t ++ [] := by simp [joinCore]
      rw [this, quoteTok_go]
      rfl
    | cons t2 ts2 =>
      have hj : joinCore (t :: t2 :: ts2) = quoteTok t ++ ' ' :: joinCore (t2 :: ts2) := by
        simp [joinCore]
      rw [hj, quoteTok_go]
      have hws : isWs ' ' = true := by decide
      rw [splitLoop_normal_cons]
      simp only [hws, if_pos rfl]
      rw [ih]
      rfl

theorem split_join (ts : List String) : split (join ts) = .ok ts := by
  show splitLoop (String.mk (joinCore (ts.map String.data))).data .normal none = _
  have hd : (String.mk (joinCore (ts.map String.data))).data = joinCore (ts.map String.data) := rfl
  rw [hd, joinCore_split]
  congr 1
  simp only [List.map_map]
  have : (String.mk ∘ String.data) = id := by
    funext s
    cases s
    rfl
  rw [this, List.map_id]


theorem collectEntries_isOk (records : List GenericEntry) : ∀ (acc : List Entry),
    (collectEntries records acc).isOk = records.all (fun r => (into r).isOk) := by
  induction records with
  | nil => intro acc; rfl
  | cons r rest ih =>
    intro acc
    simp only [collectEntries, List.all_cons]
    cases h : into r with
    | error e => simp [Except.isOk, Except.toBool, h]
    | ok entry =>
      simp only [collectEntries, h]
      rw [ih]
      simp [Except.isOk, Except.toBool, h]

theorem collectEntries_all_ok (records : List GenericEntry) : ∀ (acc : List Entry),
    records.all (fun r => (into r).isOk) = true →
    collectEntries records acc = .ok (records.foldl insertRecord acc) := by
  induction records with
  | nil => intro acc _; rfl
  | cons r rest ih =>
    intro acc hall
    simp only [List.all_cons, Bool.and_eq_true] at hall
    cases h : into r with
    | error e => simp [Except.isOk, Except.toBool, h] at hall
    | ok entry =>
      simp only [collectEntries, h, List.foldl_cons, insertRecord]
      rw [ih _ hall.2]

theorem convertAll_eq (entries : List Entry) (fmt : DatabaseFormat) :
    convertAllEntries entries fmt =
      if entries.all (fun e => (from_entry e fmt).isOk)
      then .ok (entries.filterMap (fun e => (from_entry e fmt).toOption))
      else .error (firstConvErr entries fmt) := by
  induction entries with
  | nil => rfl
  | cons e rest ih =>
    cases h : from_entry e fmt with
    | error msg =>
      have hfail : (from_entry e fmt).isOk = false := by
        simp [Except.isOk, Except.toBool, h]
      simp only [convertAllEntries, h, List.all_cons, hfail, Bool.false_and,
        Bool.false_eq_true, if_false, firstConvErr, List.filterMap_cons, errOpt]
      simp [Except.isOk, Except.toBool]
    | ok r =>
      have hok : (from_entry e fmt).isOk = true := by
        simp [Except.isOk, Except.toBool, h]
      simp only [convertAllEntries, ih, List.all_cons, hok, Bool.true_and]
      by_cases hall : rest.all (fun x => (from_entry x fmt).isOk) = true
      · simp only [hall, if_true, List.filterMap_cons, h, Except.toOption]
      · have hf : rest.all (fun x => (from_entry x fmt).isOk) = false := by
          simpa using hall
        simp only [hf, Bool.false_eq_true, if_false, firstConvErr,
          List.filterMap_cons, h, errOpt]

/-- C4: save is atomic with respect to conversion errors: when any
entry's conversion fails, `Database::save` returns the first failing
entry's conversion error and the backing file is left exactly as it was;
the file is (re)written only when every entry converted successfully. -/
theorem save_atomic (file : Option Json) (entries : List Entry) (fmt : DatabaseFormat) :
    Database.save file entries fmt =
      if entries.all (fun e => (from_entry e fmt).isOk)
      then (.ok (), some (Json.arr
        ((entries.filterMap (fun e => (from_entry e fmt).toOption)).map encodeGenericEntry)))
      else (.error (firstConvErr entries fmt), file) := by
  unfold Database.save saveDoc
  rw [convertAll_eq]
  by_cases hall : entries.all (fun e => (from_entry e fmt).isOk) = true
  · simp only [hall, if_true]
  · have hf : entries.all (fun e => (from_entry e fmt).isOk) = false := by
      simpa using hall
    simp only [hf, Bool.false_eq_true, if_false]

/-- Success of `inner::from` is equivalent to representability of the
entry's path fields, for either format. -/
theorem from_entry_isOk (e : Entry) (fmt : DatabaseFormat) :
    (from_entry e fmt).isOk = entryPathsRepresentable e := by
  unfold from_entry entryPathsRepresentable path_to_string
  cases hd : e.directory.toStr with
  | none => simp [Except.isOk, Except.toBool, hd]
  | some d =>
    cases hf : e.file.toStr with
    | none => simp [Except.isOk, Except.toBool, hd, hf]
    | some f =>
      cases ho : e.output with
      | none =>
        cases fmt.command_as_array <;>
          simp [Except.isOk, Except.toBool, hd, hf, ho]
      | some p =>
        cases hp : p.toStr with
        | none => simp [Except.isOk, Except.toBool, hd, hf, ho, hp, Except.map]
        | some o =>
          cases fmt.command_as_array <;>
            simp [Except.isOk, Except.toBool, hd, hf, ho, hp, Except.map]


/-- C7: the save-side conversion `inner::from` fails exactly when some
path field of the entry (`directory`, `file`, or `output` when present)
is not representable as text; for an entry whose path fields are all
representable it succeeds for both values of `command_as_array` - the
path fields are the only failure mode. -/
theorem from_entry_fails_iff_unrepresentable (e : Entry) (fmt : DatabaseFormat) :
    (from_entry e fmt).isOk = entryPathsRepresentable e :=
  from_entry_isOk e fmt

/-- C1 (code bug evidence): two entries agreeing on `(directory, file,
command)` and differing only in `output` are `Entry::eq`-equal, yet the
`#[derive(Hash)]` implementation feeds different field tuples (the
`output` field included) to the hasher, violating the documented
`HashSet` requirement that equal values hash equally; deduplication of
such entries is therefore not guaranteed. -/
theorem entry_hash_includes_output :
    Entry.eq
      { directory := .valid "/home/user", file := .valid "./file_b.c",
        command := ["cc", "-c", "./file_b.c"], output := none }
      { directory := .valid "/home/user", file := .valid "./file_b.c",
        command := ["cc", "-c", "./file_b.c"], output := some (.valid "./file_b.o") } = true ∧
    Entry.derivedHashInput
      { directory := .valid "/home/user", file := .valid "./file_b.c",
        command := ["cc", "-c", "./file_b.c"], output := none } ≠
    Entry.derivedHashInput
      { directory := .valid "/home/user", file := .valid "./file_b.c",
        command := ["cc", "-c", "./file_b.c"], output := some (.valid "./file_b.o") } := by
  decide


/-- C3 (code bug evidence): at this concrete two-record document every
conversion succeeds, so the claim's success branch applies and promises
the full `(directory, file, command)`-deduplicated set; but the two
converted entries are `Entry::eq`-equal while feeding different field
tuples to the derived hasher, so the `HashSet` dedup the success branch
relies on is not guaranteed by the program - the documented-contract
model would collapse them to one entry, the real set typically keeps
both.  (The error branch of `load` - the comma-joined aggregate of
every failing record's message - is the faithful part; see
`collectEntries_isOk` and the C5 and C10 theorems.) -/
theorem load_dedup_unguaranteed :
    ([.ArrayEntry "/home/user" "./file_b.c" ["cc", "-c", "./file_b.c"] none,
      .ArrayEntry "/home/user" "./file_b.c" ["cc", "-c", "./file_b.c"]
        (some "./file_b.o")] : List GenericEntry).all
      (fun r => (into r).isOk) = true ∧
    into (.ArrayEntry "/home/user" "./file_b.c" ["cc", "-c", "./file_b.c"] none) =
      .ok ⟨.valid "/home/user", .valid "./file_b.c",
           ["cc", "-c", "./file_b.c"], none⟩ ∧
    into (.ArrayEntry "/home/user" "./file_b.c" ["cc", "-c", "./file_b.c"]
        (some "./file_b.o")) =
      .ok ⟨.valid "/home/user", .valid "./file_b.c",
           ["cc", "-c", "./file_b.c"], some (.valid "./file_b.o")⟩ ∧
    Entry.eq
      ⟨.valid "/home/user", .valid "./file_b.c", ["cc", "-c", "./file_b.c"], none⟩
      ⟨.valid "/home/user", .valid "./file_b.c", ["cc", "-c", "./file_b.c"],
       some (.valid "./file_b.o")⟩ = true ∧
    Entry.derivedHashInput
      ⟨.valid "/home/user", .valid "./file_b.c", ["cc", "-c", "./file_b.c"], none⟩ ≠
    Entry.derivedHashInput
      ⟨.valid "/home/user", .valid "./file_b.c", ["cc", "-c", "./file_b.c"],
       some (.valid "./file_b.o")⟩ :=
  ⟨by decide, rfl, rfl, by decide, by decide⟩

/-- C8: a record object carrying both a string `command` field and an
array `arguments` field parses, and is decoded as the string variant:
the untagged union tries `StringEntry` (declared first) before
`ArrayEntry`, so the `arguments` field is ignored and the whole load
pipeline treats the record as a string-command record. -/
theorem ambiguous_record_prefers_string (d f c : String) (args : List Json) :
    decodeGenericEntry (.obj [("directory", .str d), ("file", .str f),
        ("command", .str c), ("arguments", .arr args)]) =
      some (.StringEntry d f c none) ∧
    loadDoc (.arr [.obj [("directory", .str d), ("file", .str f),
        ("command", .str c), ("arguments", .arr args)]]) =
      loadRecords [.StringEntry d f c none] := by
  have hdec : decodeGenericEntry (.obj [("directory", .str d), ("file", .str f),
      ("command", .str c), ("arguments", .arr args)]) =
      some (.StringEntry d f c none) := by
    simp [decodeGenericEntry, decodeStringEntry, lookupField, decodeOutput]
  refine ⟨hdec, ?_⟩
  simp [loadDoc, parseDocument, decodeAll, hdec, Except.map]


/-- C9: empty commands are accepted on both paths: an array record with
an empty `arguments` list converts to an entry with an empty command, a
string record whose command tokenizes to zero tokens converts likewise,
and the save-side conversion of an entry with an empty command succeeds
exactly when its paths are representable - no emptiness check exists. -/
theorem empty_command_accepted :
    (∀ d f o, into (.ArrayEntry d f [] o) =
        .ok ⟨PathBuf.fromStr d, PathBuf.fromStr f, [], o.map PathBuf.fromStr⟩) ∧
    (∀ d f c o, split c = .ok [] → into (.StringEntry d f c o) =
        .ok ⟨PathBuf.fromStr d, PathBuf.fromStr f, [], o.map PathBuf.fromStr⟩) ∧
    (∀ (p q : PathBuf) (o : Option PathBuf) (fmt : DatabaseFormat),
      (from_entry ⟨p, q, [], o⟩ fmt).isOk = entryPathsRepresentable ⟨p, q, [], o⟩) := by
  refine ⟨fun d f o => rfl, fun d f c o hc => ?_, fun p q o fmt => from_entry_isOk _ fmt⟩
  simp [into, hc]

/-- Witness for C9: the empty command string tokenizes to zero tokens
and converts successfully. -/
theorem empty_command_accepted_witness :
    into (.StringEntry "/home/user" "./file_a.c" "" none) =
      .ok ⟨PathBuf.fromStr "/home/user", PathBuf.fromStr "./file_a.c", [], none⟩ :=
  empty_command_accepted.2.1 "/home/user" "./file_a.c" "" none rfl

/-- A failed record conversion always carries the quote-mismatch
message naming the offending command. -/
theorem into_error_shape {r : GenericEntry} {m : String}
    (h : into r = .error m) : ∃ c, m = mismatchMsg c := by
  cases r with
  | ArrayEntry d f args o => simp [into] at h
  | StringEntry d f c o =>
    refine ⟨c, ?_⟩
    simp only [into] at h
    cases hs : split c with
    | ok args => rw [hs] at h; simp at h
    | error e => rw [hs] at h; simpa using h.symm

theorem mismatchMsg_ne_empty (c : String) : mismatchMsg c ≠ "" := by
  intro h
  have hlen := congrArg String.length h
  rw [mismatchMsg, String.length_append] at hlen
  have h23 : ("Quotes are mismatch in " : String).length = 23 := by decide
  have h0 : ("" : String).length = 0 := by decide
  omega

theorem commaJoin_ne_empty (parts : List String) (hne : parts ≠ [])
    (hall : ∀ m ∈ parts, m ≠ "") : commaJoin parts ≠ "" := by
  cases parts with
  | nil => exact absurd rfl hne
  | cons m rest =>
    cases rest with
    | nil => exact hall m (List.mem_cons_self m [])
    | cons m2 rest2 =>
      intro h
      have hlen := congrArg String.length h
      rw [show commaJoin (m :: m2 :: rest2) = m ++ ", " ++ commaJoin (m2 :: rest2) from rfl,
        String.length_append, String.length_append] at hlen
      have h2 : (", " : String).length = 2 := by decide
      have h0 : ("" : String).length = 0 := by decide
      omega

/-- C10: record conversion is deterministic (it is a pure function), so
the collection pass of `load` fails exactly when some record fails to
convert - the same records the diagnostic second pass sees - and a
conversion-stage failure always produces a non-empty aggregate error
message. -/
theorem conversion_deterministic :
    (∀ r : GenericEntry, into r = into r) ∧
    (∀ records : List GenericEntry,
      (collectEntries records []).isOk = records.all (fun r => (into r).isOk)) ∧
    (∀ records : List GenericEntry, loadErrMsgNonempty records = true) := by
  refine ⟨fun r => rfl, fun records => collectEntries_isOk records [], fun records => ?_⟩
  unfold loadErrMsgNonempty loadRecords
  cases hc : collectEntries records [] with
  | ok es => rfl
  | error e =>
    have hfail : records.all (fun r => (into r).isOk) = false := by
      rw [← collectEntries_isOk records [], hc]
      rfl
    rw [List.all_eq_false] at hfail
    obtain ⟨r, hr, hrfail⟩ := hfail
    obtain ⟨m, hm⟩ : ∃ m, into r = .error m := by
      cases him : into r with
      | ok x => rw [him] at hrfail; simp [Except.isOk, Except.toBool] at hrfail
      | error m => exact ⟨m, rfl⟩
    have hmem : m ∈ records.filterMap (fun x => errOpt (into x)) := by
      rw [List.mem_filterMap]
      exact ⟨r, hr, by rw [hm]; rfl⟩
    have hne : records.filterMap (fun x => errOpt (into x)) ≠ [] :=
      List.ne_nil_of_mem hmem
    have hall : ∀ x ∈ records.filterMap (fun y => errOpt (into y)), x ≠ "" := by
      intro x hx
      rw [List.mem_filterMap] at hx
      obtain ⟨y, _, hy⟩ := hx
      obtain ⟨m2, hm2⟩ : ∃ m2, into y = .error m2 := by
        cases him : into y with
        | ok z => rw [him] at hy; simp [errOpt] at hy
        | error m2 => exact ⟨m2, rfl⟩
      rw [hm2] at hy
      simp [errOpt] at hy
      obtain ⟨cc, hcc⟩ := into_error_shape hm2
      rw [← hy, hcc]
      exact mismatchMsg_ne_empty cc
    have : aggMsg records ≠ "" := commaJoin_ne_empty _ hne hall
    simpa [aggMsg] using this


theorem pathbuf_roundtrip {p : PathBuf} (h : p.toStr.isSome = true) :
    PathBuf.fromStr (strOfPath p) = p := by
  cases p with
  | valid s => rfl
  | invalid n => simp [PathBuf.toStr] at h

theorem entryPathsRepresentable_parts {e : Entry}
    (h : entryPathsRepresentable e = true) :
    e.directory.toStr.isSome = true ∧ e.file.toStr.isSome = true ∧
      (∀ p, e.output = some p → p.toStr.isSome = true) := by
  unfold entryPathsRepresentable at h
  simp only [Bool.and_eq_true] at h
  refine ⟨h.1.1, h.1.2, fun p hp => ?_⟩
  rw [hp] at h
  exact h.2

theorem from_entry_of_repr (e : Entry) (fmt : DatabaseFormat)
    (h : entryPathsRepresentable e = true) :
    from_entry e fmt = .ok (recordOf e fmt) := by
  obtain ⟨hd, hf, ho⟩ := entryPathsRepresentable_parts h
  unfold from_entry recordOf path_to_string strOfPath
  cases hdd : e.directory.toStr with
  | none => rw [hdd] at hd; simp at hd
  | some d =>
    cases hff : e.file.toStr with
    | none => rw [hff] at hf; simp at hf
    | some f =>
      cases hoo : e.output with
      | none =>
        cases hca : fmt.command_as_array <;> simp [hca]
      | some p =>
        cases hpp : p.toStr with
        | none =>
          have := ho p hoo
          rw [hpp] at this
          simp at this
        | some o =>
          cases hca : fmt.command_as_array <;> simp [hca, Except.map, hpp]

theorem into_recordOf (e : Entry) (fmt : DatabaseFormat)
    (h : entryPathsRepresentable e = true) :
    into (recordOf e fmt) = .ok e := by
  obtain ⟨hd, hf, ho⟩ := entryPathsRepresentable_parts h
  have hout : (e.output.map strOfPath).map PathBuf.fromStr = e.output := by
    cases hoo : e.output with
    | none => rfl
    | some p => simp [pathbuf_roundtrip (ho p hoo)]
  cases hca : fmt.command_as_array
  · unfold recordOf
    rw [hca]
    simp only [Bool.false_eq_true, if_false, into, split_join]
    rw [pathbuf_roundtrip hd, pathbuf_roundtrip hf, hout]
  · unfold recordOf
    rw [hca]
    simp only [if_true, into]
    rw [pathbuf_roundtrip hd, pathbuf_roundtrip hf, hout]

theorem decodeStrList_map (l : List String) :
    decodeStrList (l.map Json.str) = some l := by
  induction l with
  | nil => rfl
  | cons s rest ih => simp [decodeStrList, ih]

theorem decode_encode (r : GenericEntry) :
    decodeGenericEntry (encodeGenericEntry r) = some r := by
  cases r with
  | StringEntry d f c o =>
    cases o with
    | none =>
      simp [encodeGenericEntry, decodeGenericEntry, decodeStringEntry,
        lookupField, decodeOutput]
    | some s =>
      simp [encodeGenericEntry, decodeGenericEntry, decodeStringEntry,
        lookupField, decodeOutput]
  | ArrayEntry d f args o =>
    cases o with
    | none =>
      simp [encodeGenericEntry, decodeGenericEntry, decodeStringEntry,
        decodeArrayEntry, lookupField, decodeOutput, decodeStrList_map]
    | some s =>
      simp [encodeGenericEntry, decodeGenericEntry, decodeStringEntry,
        decodeArrayEntry, lookupField, decodeOutput, decodeStrList_map]

theorem decodeAll_map (recs : List GenericEntry) :
    decodeAll (recs.map encodeGenericEntry) = .ok recs := by
  induction recs with
  | nil => rfl
  | cons r rest ih => simp [decodeAll, decode_encode, ih, Except.map]

theorem convertAll_map (E : List Entry) (fmt : DatabaseFormat)
    (h : E.all entryPathsRepresentable = true) :
    convertAllEntries E fmt = .ok (E.map (fun e => recordOf e fmt)) := by
  induction E with
  | nil => rfl
  | cons e rest ih =>
    simp only [List.all_cons, Bool.and_eq_true] at h
    simp only [convertAllEntries, from_entry_of_repr e fmt h.1, ih h.2,
      List.map_cons]

theorem collect_map (E : List Entry) (fmt : DatabaseFormat)
    (h : ∀ e ∈ E, entryPathsRepresentable e = true) : ∀ (acc : List Entry),
    collectEntries (E.map (fun e => recordOf e fmt)) acc =
      .ok (E.foldl insertEntry acc) := by
  induction E with
  | nil => intro acc; rfl
  | cons e rest ih =>
    intro acc
    have he : entryPathsRepresentable e = true := h e (List.mem_cons_self e rest)
    simp only [List.map_cons, collectEntries, into_recordOf e fmt he,
      List.foldl_cons]
    exact ih (fun x hx => h x (List.mem_cons_of_mem e hx)) (insertEntry acc e)

theorem foldl_insert (E : List Entry) : ∀ (acc : List Entry),
    entrySetInv E = true →
    (∀ e ∈ E, ∀ x ∈ acc, Entry.eq x e = false) →
    E.foldl insertEntry acc = acc ++ E := by
  induction E with
  | nil => intro acc _ _; simp
  | cons e rest ih =>
    intro acc hinv hacc
    simp only [entrySetInv, Bool.and_eq_true, List.all_eq_true] at hinv
    have hnew : insertEntry acc e = acc ++ [e] := by
      unfold insertEntry
      have : acc.any (fun x => Entry.eq x e) = false := by
        rw [List.any_eq_false]
        intro x hx
        simp [hacc e (List.mem_cons_self e rest) x hx]
      simp [this]
    simp only [List.foldl_cons, hnew]
    rw [ih (acc ++ [e]) hinv.2]
    · simp
    · intro y hy x hx
      rw [List.mem_append] at hx
      cases hx with
      | inl hx => exact hacc y (List.mem_cons_of_mem e hy) x hx
      | inr hx =>
        rw [List.mem_singleton] at hx
        subst hx
        have := hinv.1 y hy
        simpa using this


theorem loadDoc_arr (items : List Json) :
    loadDoc (.arr items) =
      match decodeAll items with
      | .error e => .error e
      | .ok records => loadRecords records := rfl

/-- C2: array-format round trip: saving an entry set whose commands are
non-empty and whose paths are representable with
`DatabaseFormat { command_as_array: true }` and loading the written
document returns exactly the same entries, `output` fields included. -/
theorem array_round_trip (E : List Entry)
    (hset : entrySetInv E = true)
    (hpaths : E.all entryPathsRepresentable = true)
    (_hcmds : E.all (fun e => !e.command.isEmpty) = true) :
    saveLoad E ⟨true⟩ = .ok E := by
  have h1 : saveDoc E ⟨true⟩ =
      .ok (Json.arr ((E.map (fun e => recordOf e ⟨true⟩)).map encodeGenericEntry)) := by
    unfold saveDoc
    rw [convertAll_map E ⟨true⟩ hpaths]
  have hall : ∀ e ∈ E, entryPathsRepresentable e = true := by
    rw [List.all_eq_true] at hpaths
    exact hpaths
  unfold saveLoad
  rw [h1]
  show loadDoc _ = _
  rw [loadDoc_arr, decodeAll_map]
  show loadRecords (E.map (fun e => recordOf e ⟨true⟩)) = .ok E
  unfold loadRecords
  rw [collect_map E ⟨true⟩ hall []]
  rw [foldl_insert E [] hset (fun e _ x hx => absurd hx (List.not_mem_nil x))]
  rw [List.nil_append]

/-- C6: string-format round trip: saving an entry set whose commands
are non-empty and whose paths are representable with
`DatabaseFormat { command_as_array: false }` - the command tokens
rejoined by `shellwords::join` into one quoted string - and loading the
written document returns exactly the same entries; the tokenizer
round-trip `split (join tokens) = tokens` (theorem `split_join`) is
what makes the string variant lossless. -/
theorem string_round_trip (E : List Entry)
    (hset : entrySetInv E = true)
    (hpaths : E.all entryPathsRepresentable = true)
    (_hcmds : E.all (fun e => !e.command.isEmpty) = true) :
    saveLoad E ⟨false⟩ = .ok E := by
  have h1 : saveDoc E ⟨false⟩ =
      .ok (Json.arr ((E.map (fun e => recordOf e ⟨false⟩)).map encodeGenericEntry)) := by
    unfold saveDoc
    rw [convertAll_map E ⟨false⟩ hpaths]
  have hall : ∀ e ∈ E, entryPathsRepresentable e = true := by
    rw [List.all_eq_true] at hpaths
    exact hpaths
  unfold saveLoad
  rw [h1]
  show loadDoc _ = _
  rw [loadDoc_arr, decodeAll_map]
  show loadRecords (E.map (fun e => recordOf e ⟨false⟩)) = .ok E
  unfold loadRecords
  rw [collect_map E ⟨false⟩ hall []]
  rw [foldl_insert E [] hset (fun e _ x hx => absurd hx (List.not_mem_nil x))]
  rw [List.nil_append]

/-- Witness for C2 at the two entries of the repository's own tests. -/
theorem array_round_trip_witness :
    saveLoad
      [⟨.valid "/home/user", .valid "./file_a.c",
        ["cc", "-c", "./file_a.c", "-o", "./file_a.o"], none⟩,
       ⟨.valid "/home/user", .valid "./file_b.c",
        ["cc", "-c", "./file_b.c", "-o", "./file_b.o"], some (.valid "./file_b.o")⟩]
      ⟨true⟩ =
    .ok [⟨.valid "/home/user", .valid "./file_a.c",
          ["cc", "-c", "./file_a.c", "-o", "./file_a.o"], none⟩,
         ⟨.valid "/home/user", .valid "./file_b.c",
          ["cc", "-c", "./file_b.c", "-o", "./file_b.o"], some (.valid "./file_b.o")⟩] :=
  array_round_trip _ (by decide) (by decide) (by decide)

/-- Witness for C6, with a command whose tokens need quoting. -/
theorem string_round_trip_witness :
    saveLoad
      [⟨.valid "/home/user", .valid "./my file.c",
        ["cc", "-c", "./my file.c", "-DX=a b"], some (.valid "./my file.o")⟩]
      ⟨false⟩ =
    .ok [⟨.valid "/home/user", .valid "./my file.c",
          ["cc", "-c", "./my file.c", "-DX=a b"], some (.valid "./my file.o")⟩] :=
  string_round_trip _ (by decide) (by decide) (by decide)


theorem strContains_of_infix {hay sub : String} (h : sub.data <:+: hay.data) :
    strContains hay sub = true := by
  obtain ⟨s, t, hst⟩ := h
  unfold strContains
  rw [List.any_eq_true]
  refine ⟨s.length, ?_, ?_⟩
  · rw [List.mem_range]
    have := congrArg List.length hst
    simp only [List.length_append] at this
    omega
  · rw [← hst, List.append_assoc, List.drop_left]
    rw [List.isPrefixOf_iff_prefix]
    exact List.prefix_append sub.data t

theorem infix_commaJoin {m : String} : ∀ {parts : List String}, m ∈ parts →
    m.data <:+: (commaJoin parts).data := by
  intro parts
  induction parts with
  | nil => intro h; exact absurd h (List.not_mem_nil m)
  | cons m2 rest ih =>
    intro hmem
    rw [List.mem_cons] at hmem
    cases rest with
    | nil =>
      rcases hmem with hmem | hmem
      · subst hmem
        exact ⟨[], [], by simp [commaJoin]⟩
      · exact absurd hmem (List.not_mem_nil m)
    | cons m3 rest2 =>
      have hcj : commaJoin (m2 :: m3 :: rest2) = m2 ++ ", " ++ commaJoin (m3 :: rest2) := rfl
      rcases hmem with hmem | hmem
      · subst hmem
        refine ⟨[], (", " ++ commaJoin (m3 :: rest2)).data, ?_⟩
        rw [hcj, List.nil_append, String.data_append, String.data_append,
          String.data_append, List.append_assoc]
      · obtain ⟨s, t, hst⟩ := ih hmem
        refine ⟨(m2 ++ ", ").data ++ s, t, ?_⟩
        rw [hcj, String.data_append, String.data_append, String.data_append]
        rw [← hst]
        simp [List.append_assoc]

theorem infix_mismatchMsg (c : String) :
    (rustDebugStr c).data <:+: (mismatchMsg c).data :=
  ⟨("Quotes are mismatch in " : String).data, [],
    by rw [mismatchMsg, String.data_append, List.append_nil]⟩

/-- C5 (amended): a document containing a string record whose command
fails tokenization makes the whole load fail - no set missing just that
record is returned - and the aggregate error message contains the
record's command as rendered by Rust's `{:?}` Debug escaping (quotes
and backslashes escaped); the raw command text itself need not occur
verbatim in the message. -/
theorem unterminated_quote_reported (records : List GenericEntry)
    (d f c : String) (o : Option String)
    (hmem : GenericEntry.StringEntry d f c o ∈ records)
    (herr : (split c).isOk = false) :
    loadRecords records = .error (aggMsg records) ∧
      strContains (aggMsg records) (rustDebugStr c) = true := by
  obtain ⟨qe, hqe⟩ : ∃ qe, split c = .error qe := by
    cases hs : split c with
    | ok args => rw [hs] at herr; simp [Except.isOk, Except.toBool] at herr
    | error qe => exact ⟨qe, rfl⟩
  have hinto : into (.StringEntry d f c o) = .error (mismatchMsg c) := by
    simp [into, hqe]
  have hfail : records.all (fun r => (into r).isOk) = false := by
    rw [List.all_eq_false]
    exact ⟨_, hmem, by rw [hinto]; simp [Except.isOk, Except.toBool]⟩
  have hload : loadRecords records = .error (aggMsg records) := by
    unfold loadRecords
    have : (collectEntries records []).isOk = false := by
      rw [collectEntries_isOk]
      exact hfail
    cases hc : collectEntries records [] with
    | ok es => rw [hc] at this; simp [Except.isOk, Except.toBool] at this
    | error e => rfl
  refine ⟨hload, strContains_of_infix ?_⟩
  have hmm : mismatchMsg c ∈ records.filterMap (fun r => errOpt (into r)) := by
    rw [List.mem_filterMap]
    exact ⟨_, hmem, by rw [hinto]; rfl⟩
  exact (infix_mismatchMsg c).trans (infix_commaJoin hmm)

/-- C5 counterexample: for the command consisting of three double-quote
characters - an unterminated quote - load fails, but its error message
(which shows the command Debug-escaped) does not contain the raw
command text, contradicting the claim's containment assertion. -/
theorem quote_error_message_counterexample :
    loadRecords [.StringEntry "/home/user" "./file_a.c" "\"\"\"" none] =
      .error ("Quotes are mismatch in \"\\\"\\\"\\\"\"") ∧
      strContains ("Quotes are mismatch in \"\\\"\\\"\\\"\"") "\"\"\"" = false :=
  ⟨rfl, by decide⟩

/-- Witness for the amended C5 at the malformed command of the
repository's own `test_load_path_problem` test. -/
theorem unterminated_quote_reported_witness :
    loadRecords [.StringEntry " " "./file_a.c" "cc -Dvalue=\"this" none] =
      .error (aggMsg [.StringEntry " " "./file_a.c" "cc -Dvalue=\"this" none]) ∧
      strContains (aggMsg [.StringEntry " " "./file_a.c" "cc -Dvalue=\"this" none])
        (rustDebugStr "cc -Dvalue=\"this") = true :=
  unterminated_quote_reported _ " " "./file_a.c" "cc -Dvalue=\"this" none
    (List.mem_singleton.mpr rfl) (by decide)

end Bear
